import Mathlib

/-!
Verification of the Felix OP_CAT signet indexer (`src/main.rs`).

The development shallowly embeds:
* the witness matcher `witness_includes_cat`, including the script
  disassembler it calls (`Script::to_asm_string`, i.e. rust-bitcoin's
  `bytes_to_asm_fmt`) and the substring test `str::contains("OP_CAT")`;
* the checkpointed scan loop `App::start_index` with its helpers
  `App::insert_check_point`, `App::retrieve_check_point`,
  `App::insert_tx` and `App::parse_block`, over an abstract chain source
  and an abstract key-value store;
* the report generator `App::generate_cat_report`.

Machine integers (`u64`, `usize`) are modelled as `Nat`; the two
subtractions the code performs without a guard (`tip - BLOCK_DEPTH`,
`checkpoint - 100`) are modelled with wrapping semantics mod 2^64, which
is what an unchecked release build does.  A Rust `panic!`/`expect` is
modelled by `Option`, `none` being the panic.
-/

namespace Felix

/-! ### Characters, substring search (Rust `str::contains`) -/

/-- `leadsWith p s` holds when the character list `p` is an initial
segment of `s` (Rust `str::starts_with` on the decomposed string). -/
def leadsWith : List Char → List Char → Bool
  | [], _ => true
  | _ :: _, [] => false
  | p :: ps, s :: ss => p == s && leadsWith ps ss

/-- `hasSub pat s`: `pat` occurs contiguously somewhere in `s`.
This is the substring search performed by Rust `str::contains`. -/
def hasSub (pat : List Char) : List Char → Bool
  | [] => leadsWith pat []
  | s :: ss => leadsWith pat (s :: ss) || hasSub pat ss

/-- Embedding of Rust `str::contains` used at
`tapscript.to_asm_string().contains("OP_CAT")`. -/
def string_contains (hay pat : String) : Bool := hasSub pat.data hay.data

/-- Concatenation of the chunks a formatter writes. -/
def concatChars : List (List Char) → List Char
  | [] => []
  | a :: t => a ++ concatChars t

/-! ### Hex formatting (Rust `{:02x}` on a byte, `to_hex_string`) -/

def hexDigitChar (n : Nat) : Char := "0123456789abcdef".data.getD n '0'

/-- The two lowercase hex digits `{:02x}` prints for one byte. -/
def hexByteChars (b : Nat) : List Char := [hexDigitChar (b / 16 % 16), hexDigitChar (b % 16)]

/-- Lowercase hex rendering of a byte string. -/
def hexChars : List Nat → List Char
  | [] => []
  | b :: t => hexByteChars b ++ hexChars t

/-- `Script::to_hex_string` (lowercase hex of the raw bytes). -/
def to_hex_string (s : List Nat) : String := String.mk (hexChars s)

/-! ### Opcode mnemonics

`opcodeName b` is the string rust-bitcoin's `Debug` instance prints for
the opcode byte `b` (the name in its `all_opcodes` table).  Byte values
above 255 cannot occur in a byte string; they fall through to the final
catch-all branch. -/

/-- The individually named opcodes 0x61–0xba of rust-bitcoin's table. -/
def namedOpcode (b : Nat) : Option String :=
  if 186 < b then none
  else
    match b with
    | 97 => some "OP_NOP"
    | 98 => some "OP_VER"
    | 99 => some "OP_IF"
    | 100 => some "OP_NOTIF"
    | 101 => some "OP_VERIF"
    | 102 => some "OP_VERNOTIF"
    | 103 => some "OP_ELSE"
    | 104 => some "OP_ENDIF"
    | 105 => some "OP_VERIFY"
    | 106 => some "OP_RETURN"
    | 107 => some "OP_TOALTSTACK"
    | 108 => some "OP_FROMALTSTACK"
    | 109 => some "OP_2DROP"
    | 110 => some "OP_2DUP"
    | 111 => some "OP_3DUP"
    | 112 => some "OP_2OVER"
    | 113 => some "OP_2ROT"
    | 114 => some "OP_2SWAP"
    | 115 => some "OP_IFDUP"
    | 116 => some "OP_DEPTH"
    | 117 => some "OP_DROP"
    | 118 => some "OP_DUP"
    | 119 => some "OP_NIP"
    | 120 => some "OP_OVER"
    | 121 => some "OP_PICK"
    | 122 => some "OP_ROLL"
    | 123 => some "OP_ROT"
    | 124 => some "OP_SWAP"
    | 125 => some "OP_TUCK"
    | 126 => some "OP_CAT"
    | 127 => some "OP_SUBSTR"
    | 128 => some "OP_LEFT"
    | 129 => some "OP_RIGHT"
    | 130 => some "OP_SIZE"
    | 131 => some "OP_INVERT"
    | 132 => some "OP_AND"
    | 133 => some "OP_OR"
    | 134 => some "OP_XOR"
    | 135 => some "OP_EQUAL"
    | 136 => some "OP_EQUALVERIFY"
    | 137 => some "OP_RESERVED1"
    | 138 => some "OP_RESERVED2"
    | 139 => some "OP_1ADD"
    | 140 => some "OP_1SUB"
    | 141 => some "OP_2MUL"
    | 142 => some "OP_2DIV"
    | 143 => some "OP_NEGATE"
    | 144 => some "OP_ABS"
    | 145 => some "OP_NOT"
    | 146 => some "OP_0NOTEQUAL"
    | 147 => some "OP_ADD"
    | 148 => some "OP_SUB"
    | 149 => some "OP_MUL"
    | 150 => some "OP_DIV"
    | 151 => some "OP_MOD"
    | 152 => some "OP_LSHIFT"
    | 153 => some "OP_RSHIFT"
    | 154 => some "OP_BOOLAND"
    | 155 => some "OP_BOOLOR"
    | 156 => some "OP_NUMEQUAL"
    | 157 => some "OP_NUMEQUALVERIFY"
    | 158 => some "OP_NUMNOTEQUAL"
    | 159 => some "OP_LESSTHAN"
    | 160 => some "OP_GREATERTHAN"
    | 161 => some "OP_LESSTHANOREQUAL"
    | 162 => some "OP_GREATERTHANOREQUAL"
    | 163 => some "OP_MIN"
    | 164 => some "OP_MAX"
    | 165 => some "OP_WITHIN"
    | 166 => some "OP_RIPEMD160"
    | 167 => some "OP_SHA1"
    | 168 => some "OP_SHA256"
    | 169 => some "OP_HASH160"
    | 170 => some "OP_HASH256"
    | 171 => some "OP_CODESEPARATOR"
    | 172 => some "OP_CHECKSIG"
    | 173 => some "OP_CHECKSIGVERIFY"
    | 174 => some "OP_CHECKMULTISIG"
    | 175 => some "OP_CHECKMULTISIGVERIFY"
    | 176 => some "OP_NOP1"
    | 177 => some "OP_CLTV"
    | 178 => some "OP_CSV"
    | 179 => some "OP_NOP4"
    | 180 => some "OP_NOP5"
    | 181 => some "OP_NOP6"
    | 182 => some "OP_NOP7"
    | 183 => some "OP_NOP8"
    | 184 => some "OP_NOP9"
    | 185 => some "OP_NOP10"
    | 186 => some "OP_CHECKSIGADD"
    | _ => none

/-- The `Debug` name of an opcode byte in rust-bitcoin. -/
def opcodeName (b : Nat) : List Char :=
  if b ≤ 75 then "OP_PUSHBYTES_".data ++ (Nat.repr b).data
  else if b = 76 then "OP_PUSHDATA1".data
  else if b = 77 then "OP_PUSHDATA2".data
  else if b = 78 then "OP_PUSHDATA4".data
  else if b = 79 then "OP_PUSHNUM_NEG1".data
  else if b = 80 then "OP_RESERVED".data
  else if b ≤ 96 then "OP_PUSHNUM_".data ++ (Nat.repr (b - 80)).data
  else
    match namedOpcode b with
    | some s => s.data
    | none =>
      if b ≤ 254 then "OP_RETURN_".data ++ (Nat.repr b).data
      else "OP_INVALIDOPCODE".data

/-- What `bytes_to_asm_fmt` writes for the opcode byte itself:
`OP_PUSHBYTES_0` is special-cased to `OP_0`. -/
def mnemonicChars (b : Nat) : List Char :=
  if b = 0 then "OP_0".data else opcodeName b

/-! ### Script disassembly (rust-bitcoin `bytes_to_asm_fmt`)

The formatter walks the byte string instruction by instruction:
* bytes 0x00–0x4b (`OP_PUSHBYTES_n`) classify as a direct push of `n`
  data bytes;
* 0x4c/0x4d/0x4e (`OP_PUSHDATA1/2/4`) read a 1/2/4-byte little-endian
  length; if the length bytes are missing, it prints
  `<unexpected end>` and stops (without printing that opcode's name);
* any other byte carries no data.
After printing the mnemonic (space-separated from the previous one),
push data is printed in lowercase hex; if fewer data bytes remain than
announced, it prints `<push past end>` and stops.

The parse below records this walk as a list of instructions.  It
recurses on an explicit fuel argument so that it is structural (the
kernel can evaluate it); `parseInsts` supplies fuel `length + 1`, which
is sufficient because every step consumes at least one byte. -/

inductive Inst where
  | op (b : Nat)
  | push (b : Nat) (data : List Nat)
  | pushPastEnd (b : Nat)
  | unexpectedEnd

/-- Classify an opcode byte: the announced data length and the bytes
remaining after any length bytes; `none` when the length bytes are
missing (`<unexpected end>`). -/
def readPushLen (b : Nat) (rest : List Nat) : Option (Nat × List Nat) :=
  if b ≤ 75 then some (b, rest)
  else if b = 76 then
    match rest with
    | n :: r => some (n, r)
    | [] => none
  else if b = 77 then
    match rest with
    | n0 :: n1 :: r => some (n0 + 256 * n1, r)
    | _ => none
  else if b = 78 then
    match rest with
    | n0 :: n1 :: n2 :: n3 :: r => some (n0 + 256 * n1 + 65536 * n2 + 16777216 * n3, r)
    | _ => none
  else some (0, rest)

def parseInstsF : Nat → List Nat → List Inst
  | 0, _ => []
  | _ + 1, [] => []
  | fuel + 1, b :: rest =>
    match readPushLen b rest with
    | none => [Inst.unexpectedEnd]
    | some (dlen, rest2) =>
      if dlen = 0 then Inst.op b :: parseInstsF fuel rest2
      else if dlen ≤ rest2.length then
        Inst.push b (rest2.take dlen) :: parseInstsF fuel (rest2.drop dlen)
      else [Inst.pushPastEnd b]

def parseInsts (s : List Nat) : List Inst := parseInstsF (s.length + 1) s

/-- The chunks `bytes_to_asm_fmt` writes for the parsed instructions.
`alo` is the formatter's `at_least_one` flag: a space is written before
every mnemonic except the first. -/
def instChunks : List Inst → Bool → List (List Char)
  | [], _ => []
  | Inst.unexpectedEnd :: _, _ => ["<unexpected end>".data]
  | Inst.op b :: t, alo =>
      ((if alo then [' '] else []) ++ mnemonicChars b) :: instChunks t true
  | Inst.push b d :: t, alo =>
      ((if alo then [' '] else []) ++ mnemonicChars b) :: (' ' :: hexChars d) :: instChunks t true
  | Inst.pushPastEnd b :: _, alo =>
      [(if alo then [' '] else []) ++ mnemonicChars b, ' ' :: "<push past end>".data]

def asmChars (s : List Nat) : List Char := concatChars (instChunks (parseInsts s) false)

/-- `Script::to_asm_string` on a byte string. -/
def to_asm_string (s : List Nat) : String := String.mk (asmChars s)

/-- The opcode bytes that actually reach opcode position in the walk
(the bytes whose mnemonic the formatter prints). -/
def opcodesOf : List Inst → List Nat
  | [] => []
  | Inst.unexpectedEnd :: _ => []
  | Inst.op b :: t => b :: opcodesOf t
  | Inst.push b _ :: t => b :: opcodesOf t
  | Inst.pushPastEnd b :: _ => [b]

def scriptOpcodes (s : List Nat) : List Nat := opcodesOf (parseInsts s)

/-! ### The witness matcher (`witness_includes_cat`, src/main.rs:270) -/

/-- The string literal the matcher searches for. -/
def OP_CAT_STR : String := "OP_CAT"

/-- `witness_includes_cat` from src/main.rs: witnesses with at most two
elements never match; otherwise the second-to-last element is
disassembled and searched for the substring `"OP_CAT"`. -/
def witness_includes_cat (w : List (List Nat)) : Bool :=
  if h : w.length ≤ 2 then false
  else
    string_contains (to_asm_string (w.get ⟨w.length - 2, by omega⟩)) OP_CAT_STR

/-- The same function with the `.expect("witness")` call modelled
explicitly: `none` is a panic.  (The index is in range whenever the
guard passes, so the panic branch is in fact unreachable.) -/
def witness_includes_cat_run (w : List (List Nat)) : Option Bool :=
  if w.length ≤ 2 then some false
  else (w[w.length - 2]?).map (fun ts => string_contains (to_asm_string ts) OP_CAT_STR)

/-- Modelled from the spec: Strategy A (raw byte-scan), which appears in
the project's history but not in src/ — "witness is non-empty AND at
least one witness stack element contains the raw opcode byte anywhere in
its bytes".  The raw byte of OP_CAT is 0x7e = 126. -/
def strategy_a_byte_scan (w : List (List Nat)) : Bool :=
  !w.isEmpty && w.any (fun e => e.any (fun b => b == 126))

/-! ### The scan loop (`App::start_index`) and the persistent store

The sled database holds one key for the checkpoint and one key per
height (the stringified height) whose value is a CBOR-encoded
`HashSet<Transaction>`.  We model the store as the decoded contents: an
optional checkpoint and a per-height collection of transactions.  A
`HashSet` is modelled as a duplicate-free list: `hsInsert` is
`HashSet::insert` (a no-op on an element already present).  The chain
source (bitcoind RPC) is an abstract total map from heights to blocks
and from transactions to their inputs; an input carries its witness and
the `is_p2tr` answer for its previous output. -/

/-- `const BLOCK_DEPTH: u64 = 6` (src/main.rs:17). -/
def BLOCK_DEPTH : Nat := 6

def U64_MOD : Nat := 2 ^ 64

/-- Wrapping `u64` subtraction (what `a - b` does in an unchecked
release build; a checked build panics instead of wrapping when b > a). -/
def u64_sub (a b : Nat) : Nat := (a + U64_MOD - b) % U64_MOD

/-- One transaction input as the scan sees it: its witness stack and
whether the output it spends is P2TR (the answer of the
`get_raw_transaction` + `is_p2tr` lookup in `parse_block`). -/
structure TxIn where
  witness : List (List Nat)
  prevoutP2tr : Bool
deriving DecidableEq

/-- Abstract chain source: the tip `get_block_count` reports, the
transactions of the block at each height, and each transaction's
inputs. -/
structure Chain (Tx : Type) where
  tip : Nat
  blockTxs : Nat → List Tx
  txIns : Tx → List TxIn

/-- The decoded contents of the sled store. -/
@[ext]
structure Store (Tx : Type) where
  checkpoint : Option Nat
  matchesAt : Nat → List Tx

/-- `HashSet::insert`: add `tx` unless already present. -/
def hsInsert {Tx : Type} [DecidableEq Tx] (tx : Tx) (l : List Tx) : List Tx :=
  if tx ∈ l then l else l ++ [tx]

/-- `App::insert_tx` (src/main.rs:125): read the set stored at `height`
(empty if absent), insert, write back. -/
def insert_tx {Tx : Type} [DecidableEq Tx] (height : Nat) (tx : Tx) (s : Store Tx) : Store Tx :=
  { s with matchesAt := fun h => if h = height then hsInsert tx (s.matchesAt height) else s.matchesAt h }

/-- `App::insert_check_point` (src/main.rs:105). -/
def insert_check_point {Tx : Type} (height : Nat) (s : Store Tx) : Store Tx :=
  { s with checkpoint := some height }

/-- `App::retrieve_check_point` (src/main.rs:114): the stored
checkpoint, or `start_block` if none was ever stored. -/
def retrieve_check_point {Tx : Type} (s : Store Tx) (start_block : Nat) : Nat :=
  (s.checkpoint).getD start_block

/-- `App::parse_block` (src/main.rs:144): for every transaction of the
block and every input, if the witness matches and the spent output is
P2TR, insert the transaction into the set for this height. -/
def parse_block {Tx : Type} [DecidableEq Tx] (c : Chain Tx) (height : Nat) (s : Store Tx) :
    Store Tx :=
  (c.blockTxs height).foldl
    (fun st tx =>
      (c.txIns tx).foldl
        (fun st2 inp =>
          if witness_includes_cat inp.witness && inp.prevoutP2tr then insert_tx height tx st2
          else st2)
        st)
    s

/-- The body of one iteration of the scan loop (src/main.rs:95–100):
parse the block at `height`, then persist `height` as the checkpoint. -/
def stepHeight {Tx : Type} [DecidableEq Tx] (c : Chain Tx) (height : Nat) (s : Store Tx) :
    Store Tx :=
  insert_check_point height (parse_block c height s)

/-- The scan loop over a list of heights; the second component is the
sequence of checkpoint values passed to `insert_check_point`, in
order. -/
def scanLoop {Tx : Type} [DecidableEq Tx] (c : Chain Tx) :
    List Nat → Store Tx → Store Tx × List Nat
  | [], s => (s, [])
  | h :: t, s =>
    let r := scanLoop c t (stepHeight c h s)
    (r.1, h :: r.2)

/-- The heights `start_index` iterates over:
`checkpoint..index_till` where `index_till = tip - BLOCK_DEPTH`
(src/main.rs:89, 95). -/
def scanHeights {Tx : Type} (c : Chain Tx) (start_block : Nat) (s : Store Tx) : List Nat :=
  List.range' (retrieve_check_point s start_block)
    (u64_sub c.tip BLOCK_DEPTH - retrieve_check_point s start_block)

/-- `App::start_index` (src/main.rs:86). -/
def start_index {Tx : Type} [DecidableEq Tx] (c : Chain Tx) (start_block : Nat) (s : Store Tx) :
    Store Tx :=
  (scanLoop c (scanHeights c start_block s) s).1

/-- The checkpoint values a run of `start_index` persists, in order. -/
def checkpointTrace {Tx : Type} [DecidableEq Tx] (c : Chain Tx) (start_block : Nat)
    (s : Store Tx) : List Nat :=
  (scanLoop c (scanHeights c start_block s) s).2

/-- The effect of `parse_block` on the one height it touches, as a pure
operation on the stored list. -/
def applyBlock {Tx : Type} [DecidableEq Tx] (c : Chain Tx) (height : Nat) (l : List Tx) :
    List Tx :=
  (c.blockTxs height).foldl
    (fun acc tx =>
      (c.txIns tx).foldl
        (fun acc2 inp =>
          if witness_includes_cat inp.witness && inp.prevoutP2tr then hsInsert tx acc2 else acc2)
        acc)
    l

/-- The transactions `parse_block` inserts at a height, one occurrence
per matching input, in insertion order. -/
def blockInsertions {Tx : Type} (c : Chain Tx) (height : Nat) : List Tx :=
  (c.blockTxs height).flatMap (fun tx =>
    ((c.txIns tx).filter
      (fun inp => witness_includes_cat inp.witness && inp.prevoutP2tr)).map (fun _ => tx))

/-- Fold a sequence of `HashSet::insert`s into a stored list. -/
def insAll {Tx : Type} [DecidableEq Tx] (xs : List Tx) (l : List Tx) : List Tx :=
  xs.foldl (fun acc x => hsInsert x acc) l

/-! ### The report generator (`App::generate_cat_report`, src/main.rs:196) -/

/-- The derived record the report stores per matched transaction. -/
structure TransactionExt (Tx : Type) where
  height : Nat
  scripts_asm : String
  scripts_hex : String
  tx : Tx

/-- The extraction `generate_cat_report` performs per input
(src/main.rs:212): `witness.nth(witness.len() - 2).expect("witness")`.
With fewer than two witness elements `len - 2` wraps around (usize) and
`nth` yields `None`, so `expect` panics: `none`. -/
def tapscript_of_input (inp : TxIn) : Option (List Nat) :=
  if inp.witness.length < 2 then none else inp.witness[inp.witness.length - 2]?

/-- The per-transaction part of the report: concatenate every input's
tapscript disassembly and hex (src/main.rs:209–215). -/
def report_tx_scripts {Tx : Type} (c : Chain Tx) (tx : Tx) : Option (String × String) :=
  (c.txIns tx).foldlM
    (fun acc inp =>
      match tapscript_of_input inp with
      | none => none
      | some ts => some (acc.1 ++ to_asm_string ts, acc.2 ++ to_hex_string ts))
    ("", "")

/-- The trailing window of heights the report covers:
`(checkpoint - 100)..checkpoint` (src/main.rs:202–203). -/
def report_window {Tx : Type} (s : Store Tx) (start_block : Nat) : List Nat :=
  List.range' (u64_sub (retrieve_check_point s start_block) 100)
    (retrieve_check_point s start_block - u64_sub (retrieve_check_point s start_block) 100)

/-- `App::generate_cat_report` (src/main.rs:196): expand every stored
match in the window into a `TransactionExt`; `none` is the panic of the
`expect("witness")` on an input with a short witness. -/
def generate_cat_report {Tx : Type} [DecidableEq Tx] (c : Chain Tx) (start_block : Nat)
    (s : Store Tx) : Option (List (TransactionExt Tx)) :=
  (report_window s start_block).foldlM
    (fun acc i =>
      (s.matchesAt i).foldlM
        (fun acc2 tx =>
          match report_tx_scripts c tx with
          | none => none
          | some p => some (acc2 ++ [⟨i, p.1, p.2, tx⟩]))
        acc)
    ([] : List (TransactionExt Tx))

/-! ### Concrete instances used by witnesses and counterexamples -/

/-- A chain whose blocks are all empty, with a given tip. -/
def trivialChain (tip : Nat) : Chain Nat :=
  { tip := tip, blockTxs := fun _ => [], txIns := fun _ => [] }

/-- The store of a fresh database: no checkpoint, no matches. -/
def emptyStore : Store Nat :=
  { checkpoint := none, matchesAt := fun _ => [] }

/-- A chain for the report claims: transaction 7 has a single input
with an empty witness. -/
def reportChain : Chain Nat :=
  { tip := 200, blockTxs := fun _ => [], txIns := fun t => if t = 7 then [⟨[], false⟩] else [] }

/-- A store for the report claims: checkpoint 100, transaction 7
recorded as a match at height 50. -/
def reportStore : Store Nat :=
  { checkpoint := some 100, matchesAt := fun i => if i = 50 then [7] else [] }

/-- Finite check over all byte values: a mnemonic chunk (with or
without its separating space) contains the substring `"OP_CAT"` exactly
for the byte 0x7e = 126. -/
def mnemonicTableOk : Bool :=
  (List.range 256).all (fun b =>
    (hasSub OP_CAT_STR.data (' ' :: mnemonicChars b) == decide (b = 126)) &&
    (hasSub OP_CAT_STR.data (mnemonicChars b) == decide (b = 126)))

/-! ## Lemmas: substring search -/

theorem leadsWith_iff (p : List Char) : ∀ l, leadsWith p l = true ↔ p <+: l := by
  induction p with
  | nil => intro l; simp [leadsWith, List.nil_prefix]
  | cons a p ih =>
    intro l
    cases l with
    | nil => simp [leadsWith]
    | cons b t => simp [leadsWith, List.cons_prefix_cons, ih t, and_comm]

theorem hasSub_iff (p : List Char) : ∀ l, hasSub p l = true ↔ p <:+: l := by
  intro l
  induction l with
  | nil =>
    simp only [hasSub, leadsWith_iff, List.infix_nil, List.prefix_nil]
  | cons c t ih =>
    simp only [hasSub, Bool.or_eq_true, leadsWith_iff, ih, List.infix_cons_iff]

/-- A pattern cannot be a prefix past a boundary whose right side starts
with a character the pattern does not contain: if `J` is empty or opens
with such a character, a prefix occurrence inside `a ++ J` lies in `a`. -/
theorem prefix_through_append {J : List Char} :
    ∀ (a : List Char) (pat : List Char), pat ≠ [] →
      (J = [] ∨ ∃ ch t, J = ch :: t ∧ ch ∉ pat) →
      pat <+: a ++ J → pat <+: a := by
  intro a
  induction a with
  | nil =>
    intro pat hne hJ hp
    cases pat with
    | nil => exact absurd rfl hne
    | cons p0 pr =>
      rcases hJ with hJ | ⟨ch, t, hJ, hch⟩
      · rw [List.nil_append, hJ, List.prefix_nil] at hp
        exact absurd hp (by simp)
      · rw [List.nil_append, hJ, List.cons_prefix_cons] at hp
        exact absurd (hp.1 ▸ List.mem_cons_self p0 pr) hch
  | cons x a' ih =>
    intro pat hne hJ hp
    cases pat with
    | nil => exact absurd rfl hne
    | cons p0 pr =>
      rw [List.cons_append, List.cons_prefix_cons] at hp
      rcases hp with ⟨hpx, hpr⟩
      cases pr with
      | nil =>
        rw [List.cons_prefix_cons]
        exact ⟨hpx, List.nil_prefix⟩
      | cons q0 qr =>
        have hJ' : J = [] ∨ ∃ ch t, J = ch :: t ∧ ch ∉ q0 :: qr := by
          rcases hJ with hJ | ⟨ch, t, hJ, hch⟩
          · exact Or.inl hJ
          · exact Or.inr ⟨ch, t, hJ, fun hm => hch (List.subset_cons_self p0 _ hm)⟩
        have := ih (q0 :: qr) (by simp) hJ' hpr
        rw [List.cons_prefix_cons]
        exact ⟨hpx, this⟩

/-- Decomposition of an infix occurrence across a chunk boundary whose
right side opens with a character the pattern does not contain. -/
theorem infix_append_split {J : List Char} :
    ∀ (a : List Char) (pat : List Char), pat ≠ [] →
      (J = [] ∨ ∃ ch t, J = ch :: t ∧ ch ∉ pat) →
      (pat <:+: a ++ J ↔ pat <:+: a ∨ pat <:+: J) := by
  intro a
  induction a with
  | nil =>
    intro pat hne hJ
    simp only [List.nil_append, List.infix_nil]
    constructor
    · exact fun h => Or.inr h
    · rintro (h | h)
      · exact absurd h hne
      · exact h
  | cons x a' ih =>
    intro pat hne hJ
    constructor
    · intro h
      rw [List.cons_append, List.infix_cons_iff] at h
      rcases h with h | h
      · have := prefix_through_append (x :: a') pat hne hJ (by simpa using h)
        exact Or.inl this.isInfix
      · rcases (ih pat hne hJ).1 h with h | h
        · exact Or.inl (List.infix_cons h)
        · exact Or.inr h
    · rintro (h | h)
      · exact h.trans (List.prefix_append (x :: a') J).isInfix
      · exact h.trans (List.suffix_append (x :: a') J).isInfix

/-! ## Lemmas: the disassembly contains "OP_CAT" iff 0x7e reaches opcode position -/

theorem opCat_ne_nil : OP_CAT_STR.data ≠ [] := by decide

theorem namedOpcode_high (b : Nat) (h : 256 ≤ b) : namedOpcode b = none := by
  unfold namedOpcode
  rw [if_pos (show 186 < b by omega)]

theorem mnemonicChars_high (b : Nat) (h : 256 ≤ b) :
    mnemonicChars b = "OP_INVALIDOPCODE".data := by
  rw [mnemonicChars, if_neg (show ¬ b = 0 by omega), opcodeName,
    if_neg (show ¬ b ≤ 75 by omega), if_neg (show ¬ b = 76 by omega),
    if_neg (show ¬ b = 77 by omega), if_neg (show ¬ b = 78 by omega),
    if_neg (show ¬ b = 79 by omega), if_neg (show ¬ b = 80 by omega),
    if_neg (show ¬ b ≤ 96 by omega)]
  simp only [namedOpcode_high b h]
  rw [if_neg (show ¬ b ≤ 254 by omega)]

set_option maxRecDepth 100000 in
set_option maxHeartbeats 2000000 in
theorem mnemonicTableOk_eq_true : mnemonicTableOk = true := by decide

theorem hasSub_mn_chunk (b : Nat) (alo : Bool) :
    hasSub OP_CAT_STR.data ((if alo then [' '] else []) ++ mnemonicChars b) = true ↔ b = 126 := by
  rcases Nat.lt_or_ge b 256 with hb | hb
  · have h1 := mnemonicTableOk_eq_true
    rw [mnemonicTableOk, List.all_eq_true] at h1
    have h2 := h1 b (List.mem_range.mpr hb)
    rw [Bool.and_eq_true, beq_iff_eq, beq_iff_eq] at h2
    cases alo with
    | false =>
      have he : ((if (false : Bool) then [' '] else []) ++ mnemonicChars b) = mnemonicChars b := by
        simp
      rw [he, h2.2]
      simp
    | true =>
      have he : ((if (true : Bool) then [' '] else []) ++ mnemonicChars b)
          = ' ' :: mnemonicChars b := by simp
      rw [he, h2.1]
      simp
  · rw [mnemonicChars_high b hb]
    constructor
    · intro hc
      cases alo with
      | false => exact absurd hc (by decide)
      | true => exact absurd hc (by decide)
    · intro hc
      omega

/-- Shared step: an infix occurrence in "chunk, then a space-opened
chunk, then well-formed remaining chunks" is in one of the pieces. -/
theorem infix_chunk2 (c1 x J : List Char)
    (hJ : J = [] ∨ ∃ ch t, J = ch :: t ∧ ch ∉ OP_CAT_STR.data)
    (hx : ¬ OP_CAT_STR.data <:+: (' ' :: x)) :
    (OP_CAT_STR.data <:+: c1 ++ ((' ' :: x) ++ J) ↔
      (OP_CAT_STR.data <:+: c1 ∨ OP_CAT_STR.data <:+: J)) := by
  have h1 := @infix_append_split ((' ' :: x) ++ J) c1 OP_CAT_STR.data opCat_ne_nil
    (Or.inr ⟨' ', x ++ J, List.cons_append ' ' x J, by decide⟩)
  have h2 := @infix_append_split J (' ' :: x) OP_CAT_STR.data opCat_ne_nil hJ
  rw [h1, h2]
  tauto

theorem hexDigitChar_mem (n : Nat) : hexDigitChar n ∈ "0123456789abcdef".data := by
  rw [hexDigitChar]
  rcases Nat.lt_or_ge n 16 with h | h
  · interval_cases n <;> decide
  · rw [List.getD_eq_default _ _ (by simpa using h)]
    decide

theorem mem_hexChars (d : List Nat) (c : Char) (hc : c ∈ hexChars d) :
    c ∈ "0123456789abcdef".data := by
  induction d with
  | nil => simp [hexChars] at hc
  | cons b t ih =>
    rw [hexChars] at hc
    rcases List.mem_append.mp hc with h | h
    · rcases (by simpa [hexByteChars] using h : c = hexDigitChar (b / 16 % 16) ∨
        c = hexDigitChar (b % 16)) with h' | h' <;> rw [h'] <;> exact hexDigitChar_mem _
    · exact ih h

theorem no_cat_in_hex_chunk (d : List Nat) :
    ¬ OP_CAT_STR.data <:+: (' ' :: hexChars d) := by
  intro h
  have hO : 'O' ∈ ' ' :: hexChars d := h.subset (by decide)
  rcases List.mem_cons.mp hO with h1 | h1
  · exact absurd h1 (by decide)
  · exact absurd (mem_hexChars d 'O' h1) (by decide)

theorem instChunks_true_heads : ∀ (t : List Inst), ∀ c ∈ instChunks t true,
    ∃ ch r, c = ch :: r ∧ (ch = ' ' ∨ ch = '<') := by
  intro t
  induction t with
  | nil => simp [instChunks]
  | cons i t ih =>
    cases i with
    | op b =>
      intro c hc
      rw [instChunks] at hc
      rcases List.mem_cons.mp hc with h | h
      · exact ⟨' ', mnemonicChars b, by simpa using h, Or.inl rfl⟩
      · exact ih c h
    | push b d =>
      intro c hc
      rw [instChunks] at hc
      rcases List.mem_cons.mp hc with h | h
      · exact ⟨' ', mnemonicChars b, by simpa using h, Or.inl rfl⟩
      · rcases List.mem_cons.mp h with h' | h'
        · exact ⟨' ', hexChars d, by simpa using h', Or.inl rfl⟩
        · exact ih c h'
    | pushPastEnd b =>
      intro c hc
      rw [instChunks] at hc
      rcases List.mem_cons.mp hc with h | h
      · exact ⟨' ', mnemonicChars b, by simpa using h, Or.inl rfl⟩
      · rcases List.mem_cons.mp h with h' | h'
        · exact ⟨' ', "<push past end>".data, by simpa using h', Or.inl rfl⟩
        · simp at h'
    | unexpectedEnd =>
      intro c hc
      rw [instChunks] at hc
      rcases List.mem_cons.mp hc with h | h
      · exact ⟨'<', "unexpected end>".data, by rw [h], Or.inr rfl⟩
      · simp at h

theorem concat_instChunks_head (t : List Inst) :
    concatChars (instChunks t true) = [] ∨
    ∃ ch r, concatChars (instChunks t true) = ch :: r ∧ ch ∉ OP_CAT_STR.data := by
  cases h : instChunks t true with
  | nil => left; rw [concatChars]
  | cons c cs =>
    rcases instChunks_true_heads t c (h ▸ List.mem_cons_self c cs) with ⟨ch, r, hc, hch⟩
    right
    refine ⟨ch, r ++ concatChars cs, ?_, ?_⟩
    · rw [concatChars, hc, List.cons_append]
    · rcases hch with h' | h' <;> rw [h'] <;> decide

theorem instChunks_cat_iff : ∀ (insts : List Inst) (alo : Bool),
    (OP_CAT_STR.data <:+: concatChars (instChunks insts alo)) ↔ 126 ∈ opcodesOf insts := by
  intro insts
  induction insts with
  | nil =>
    intro alo
    rw [instChunks, concatChars, opcodesOf]
    rw [List.infix_nil]
    simp only [List.not_mem_nil, iff_false]
    decide
  | cons i t ih =>
    intro alo
    cases i with
    | op b =>
      show OP_CAT_STR.data <:+:
          (((if alo then [' '] else []) ++ mnemonicChars b) ++ concatChars (instChunks t true)) ↔
        126 ∈ b :: opcodesOf t
      rw [infix_append_split _ _ opCat_ne_nil (concat_instChunks_head t)]
      rw [← hasSub_iff, hasSub_mn_chunk b alo, ih true, List.mem_cons]
      rw [eq_comm]
    | push b d =>
      show OP_CAT_STR.data <:+:
          (((if alo then [' '] else []) ++ mnemonicChars b) ++
            ((' ' :: hexChars d) ++ concatChars (instChunks t true))) ↔
        126 ∈ b :: opcodesOf t
      rw [infix_chunk2 _ _ _ (concat_instChunks_head t) (no_cat_in_hex_chunk d)]
      rw [← hasSub_iff, hasSub_mn_chunk b alo, ih true, List.mem_cons]
      rw [eq_comm]
    | pushPastEnd b =>
      show OP_CAT_STR.data <:+:
          (((if alo then [' '] else []) ++ mnemonicChars b) ++
            ((' ' :: "<push past end>".data) ++ [])) ↔
        126 ∈ [b]
      rw [infix_chunk2 _ _ _ (Or.inl rfl) (by decide)]
      rw [← hasSub_iff, hasSub_mn_chunk b alo, List.mem_singleton]
      have : ¬ OP_CAT_STR.data <:+: ([] : List Char) := by
        rw [List.infix_nil]; decide
      rw [eq_comm]
      tauto
    | unexpectedEnd =>
      show OP_CAT_STR.data <:+: ("<unexpected end>".data ++ []) ↔ 126 ∈ ([] : List Nat)
      rw [List.append_nil]
      simp only [List.not_mem_nil, iff_false]
      decide

/-- The central semantic fact about the matcher's string test: the
disassembly of a byte string contains the substring `"OP_CAT"` exactly
when the byte 0x7e = 126 occurs in opcode position (never when it only
occurs inside push data or push lengths). -/
theorem asm_cat_iff (s : List Nat) :
    string_contains (to_asm_string s) OP_CAT_STR = true ↔ 126 ∈ scriptOpcodes s := by
  rw [string_contains, hasSub_iff]
  exact instChunks_cat_iff (parseInsts s) false

/-! ## Lemmas: the store and the scan loop -/

section ScanLemmas

variable {Tx : Type} [DecidableEq Tx]

theorem mem_hsInsert_self (tx : Tx) (l : List Tx) : tx ∈ hsInsert tx l := by
  rw [hsInsert]
  split
  · assumption
  · simp

theorem mem_hsInsert_of_mem {x tx : Tx} {l : List Tx} (h : x ∈ l) : x ∈ hsInsert tx l := by
  rw [hsInsert]
  split
  · exact h
  · exact List.mem_append_left _ h

theorem hsInsert_eq_of_mem {tx : Tx} {l : List Tx} (h : tx ∈ l) : hsInsert tx l = l := by
  rw [hsInsert, if_pos h]

theorem mem_insAll_of_mem {x : Tx} : ∀ (xs l : List Tx), x ∈ l → x ∈ insAll xs l := by
  intro xs
  induction xs with
  | nil => intro l h; exact h
  | cons a t ih => intro l h; exact ih (hsInsert a l) (mem_hsInsert_of_mem h)

theorem mem_insAll_self {x : Tx} : ∀ (xs l : List Tx), x ∈ xs → x ∈ insAll xs l := by
  intro xs
  induction xs with
  | nil => intro l h; simp at h
  | cons a t ih =>
    intro l h
    rcases List.mem_cons.mp h with h | h
    · subst h; exact mem_insAll_of_mem t _ (mem_hsInsert_self x l)
    · exact ih _ h

theorem insAll_eq_of_subset : ∀ (xs l : List Tx), (∀ x ∈ xs, x ∈ l) → insAll xs l = l := by
  intro xs
  induction xs with
  | nil => intro l _; rfl
  | cons a t ih =>
    intro l h
    show insAll t (hsInsert a l) = l
    rw [hsInsert_eq_of_mem (h a (List.mem_cons_self a t))]
    exact ih l (fun x hx => h x (List.mem_cons_of_mem a hx))

theorem insAll_idem (xs l : List Tx) : insAll xs (insAll xs l) = insAll xs l :=
  insAll_eq_of_subset xs _ (fun _ hx => mem_insAll_self xs l hx)

theorem insAll_append (xs ys l : List Tx) :
    insAll (xs ++ ys) l = insAll ys (insAll xs l) :=
  List.foldl_append ..

/-- The per-transaction inner loop of `parse_block`, viewed on the
stored list: it is the sequence of inserts of `tx`, one per matching
input. -/
theorem inner_fold_eq (tx : Tx) : ∀ (inps : List TxIn) (l : List Tx),
    inps.foldl
      (fun acc2 inp =>
        if witness_includes_cat inp.witness && inp.prevoutP2tr then hsInsert tx acc2 else acc2)
      l
    = insAll
        ((inps.filter
          (fun inp => witness_includes_cat inp.witness && inp.prevoutP2tr)).map (fun _ => tx))
        l := by
  intro inps
  induction inps with
  | nil => intro l; rfl
  | cons inp t ih =>
    intro l
    by_cases hc : (witness_includes_cat inp.witness && inp.prevoutP2tr) = true
    · rw [List.foldl_cons, if_pos hc, List.filter_cons, if_pos hc, List.map_cons]
      exact ih (hsInsert tx l)
    · rw [List.foldl_cons, if_neg hc, List.filter_cons, if_neg hc]
      exact ih l

theorem applyBlock_eq_insAll (c : Chain Tx) (height : Nat) (l : List Tx) :
    applyBlock c height l = insAll (blockInsertions c height) l := by
  rw [applyBlock, blockInsertions]
  generalize c.blockTxs height = txs
  induction txs generalizing l with
  | nil => rfl
  | cons tx txs ih =>
    rw [List.foldl_cons, List.flatMap_cons, insAll_append, ← ih, inner_fold_eq]

theorem applyBlock_idem (c : Chain Tx) (height : Nat) (l : List Tx) :
    applyBlock c height (applyBlock c height l) = applyBlock c height l := by
  rw [applyBlock_eq_insAll, applyBlock_eq_insAll, insAll_idem]

/-- The per-transaction inner loop of `parse_block`, on the store. -/
theorem parse_inner_eq (height : Nat) (tx : Tx) : ∀ (inps : List TxIn) (st : Store Tx),
    inps.foldl
      (fun st2 inp =>
        if witness_includes_cat inp.witness && inp.prevoutP2tr then insert_tx height tx st2
        else st2)
      st
    = { checkpoint := st.checkpoint,
        matchesAt := fun h =>
          if h = height then
            inps.foldl
              (fun acc inp =>
                if witness_includes_cat inp.witness && inp.prevoutP2tr then hsInsert tx acc
                else acc)
              (st.matchesAt height)
          else st.matchesAt h } := by
  intro inps
  induction inps with
  | nil =>
    intro st
    refine Store.ext rfl (funext fun h => ?_)
    by_cases hh : h = height
    · subst hh; simp
    · simp [hh]
  | cons inp t ih =>
    intro st
    by_cases hc : (witness_includes_cat inp.witness && inp.prevoutP2tr) = true
    · rw [List.foldl_cons, if_pos hc, ih, List.foldl_cons, if_pos hc]
      refine Store.ext rfl (funext fun h => ?_)
      by_cases hh : h = height
      · subst hh; simp [insert_tx]
      · simp [insert_tx, hh]
    · rw [List.foldl_cons, if_neg hc, ih, List.foldl_cons, if_neg hc]

/-- `parse_block` only changes the stored list at its own height, where
it applies `applyBlock`. -/
theorem parse_block_eq (c : Chain Tx) (height : Nat) (s : Store Tx) :
    parse_block c height s
    = { checkpoint := s.checkpoint,
        matchesAt := fun h =>
          if h = height then applyBlock c height (s.matchesAt height) else s.matchesAt h } := by
  rw [parse_block, applyBlock]
  generalize c.blockTxs height = txs
  induction txs generalizing s with
  | nil =>
    refine Store.ext rfl (funext fun h => ?_)
    by_cases hh : h = height
    · subst hh; simp
    · simp [hh]
  | cons tx txs ih =>
    rw [List.foldl_cons, parse_inner_eq, ih, List.foldl_cons]
    refine Store.ext rfl (funext fun h => ?_)
    by_cases hh : h = height
    · subst hh; simp
    · simp [hh]

theorem scanLoop_trace (c : Chain Tx) : ∀ (hs : List Nat) (s : Store Tx),
    (scanLoop c hs s).2 = hs := by
  intro hs
  induction hs with
  | nil => intro s; rfl
  | cons h t ih =>
    intro s
    show h :: (scanLoop c t (stepHeight c h s)).2 = h :: t
    rw [ih]

theorem stepHeight_checkpoint (c : Chain Tx) (height : Nat) (s : Store Tx) :
    (stepHeight c height s).checkpoint = some height := rfl

theorem stepHeight_matchesAt (c : Chain Tx) (height : Nat) (s : Store Tx) (h : Nat) :
    (stepHeight c height s).matchesAt h
    = if h = height then applyBlock c height (s.matchesAt height) else s.matchesAt h := by
  show (parse_block c height s).matchesAt h = _
  rw [parse_block_eq]

theorem scanLoop_checkpoint (c : Chain Tx) : ∀ (hs : List Nat) (s : Store Tx),
    (scanLoop c hs s).1.checkpoint = hs.getLast?.elim s.checkpoint some := by
  intro hs
  induction hs with
  | nil => intro s; rfl
  | cons h t ih =>
    intro s
    show (scanLoop c t (stepHeight c h s)).1.checkpoint = _
    rw [ih]
    cases t with
    | nil => simp [stepHeight_checkpoint]
    | cons a t' =>
      rw [List.getLast?_cons_cons]
      cases hgl : (a :: t').getLast? with
      | none => simp at hgl
      | some x => rfl

theorem scanLoop_checkpoint_last (c : Chain Tx) (hs : List Nat) (s : Store Tx) (h : Nat)
    (hl : hs.getLast? = some h) : (scanLoop c hs s).1.checkpoint = some h := by
  rw [scanLoop_checkpoint, hl]
  rfl

theorem scanLoop_matchesAt (c : Chain Tx) : ∀ (hs : List Nat), hs.Nodup →
    ∀ (s : Store Tx) (h : Nat),
    (scanLoop c hs s).1.matchesAt h
    = if h ∈ hs then applyBlock c h (s.matchesAt h) else s.matchesAt h := by
  intro hs
  induction hs with
  | nil => intro _ s h; simp [scanLoop]
  | cons h0 t ih =>
    intro hnd s h
    have h0nt : h0 ∉ t := (List.nodup_cons.mp hnd).1
    show (scanLoop c t (stepHeight c h0 s)).1.matchesAt h = _
    rw [ih (List.nodup_cons.mp hnd).2]
    by_cases hht : h ∈ t
    · have hne : h ≠ h0 := fun e => h0nt (e ▸ hht)
      rw [if_pos hht, if_pos (List.mem_cons_of_mem h0 hht), stepHeight_matchesAt, if_neg hne]
    · rw [if_neg hht, stepHeight_matchesAt]
      by_cases hh0 : h = h0
      · subst hh0
        rw [if_pos rfl, if_pos (List.mem_cons_self h t)]
      · rw [if_neg hh0, if_neg (by simp [hh0, hht])]

omit [DecidableEq Tx] in
theorem scanHeights_nodup (c : Chain Tx) (sb : Nat) (s : Store Tx) :
    (scanHeights c sb s).Nodup :=
  List.nodup_range' _ _

theorem start_index_matchesAt (c : Chain Tx) (sb : Nat) (s : Store Tx) (h : Nat) :
    (start_index c sb s).matchesAt h
    = if h ∈ scanHeights c sb s then applyBlock c h (s.matchesAt h) else s.matchesAt h :=
  scanLoop_matchesAt c (scanHeights c sb s) (scanHeights_nodup c sb s) s h

theorem start_index_checkpoint (c : Chain Tx) (sb : Nat) (s : Store Tx) :
    (start_index c sb s).checkpoint
    = (scanHeights c sb s).getLast?.elim s.checkpoint some :=
  scanLoop_checkpoint c (scanHeights c sb s) s

theorem range'_getLast? : ∀ (n s : Nat),
    (List.range' s n).getLast? = if n = 0 then none else some (s + n - 1) := by
  intro n
  induction n with
  | zero => intro s; rfl
  | succ n ih =>
    intro s
    rw [List.range'_succ]
    cases n with
    | zero => simp
    | succ m =>
      rw [List.range'_succ, List.getLast?_cons_cons, ← List.range'_succ, ih (s + 1)]
      rw [if_neg (by omega), if_neg (by omega)]
      congr 1
      omega

end ScanLemmas

/-- For a witness with more than two elements, the matcher's answer is
the substring test on the disassembly of the second-to-last element. -/
theorem witness_includes_cat_eq_of_sel {w : List (List Nat)} {script : List Nat}
    (h2 : 2 < w.length) (hsel : w[w.length - 2]? = some script) :
    witness_includes_cat w = string_contains (to_asm_string script) OP_CAT_STR := by
  have hlt : w.length - 2 < w.length := by omega
  have hget : w.get ⟨w.length - 2, hlt⟩ = script := by
    rw [List.get_eq_getElem]
    rw [List.getElem?_eq_getElem hlt] at hsel
    exact Option.some.inj hsel
  rw [witness_includes_cat, dif_neg (by omega), hget]

/-- Helper for Option-fold failure: a fold in the `Option` monad
returns `none` as soon as some element unconditionally fails. -/
theorem foldlM_none {α β : Type} (f : β → α → Option β) :
    ∀ (l : List α) (init : β) (x : α), x ∈ l → (∀ acc, f acc x = none) →
      l.foldlM f init = none := by
  intro l
  induction l with
  | nil => intro init x hx _; simp at hx
  | cons a t ih =>
    intro init x hx hnone
    rw [List.foldlM_cons]
    rcases List.mem_cons.mp hx with h | h
    · subst h
      rw [hnone init]
      rfl
    · cases hfa : f init a with
      | none => rfl
      | some b =>
        show t.foldlM f b = none
        exact ih b x h hnone

/-! ## Claim C1 -/

/-- C1 counterexample: scanning the trivial chain with tip 7 processes
exactly height 0 (`index_till = 1`); the checkpoint persisted for that
height is 0, not 0 + 1, refuting the claim that the loop persists
`height + 1`. -/
theorem checkpoint_not_height_plus_one :
    scanHeights (trivialChain 7) 0 emptyStore = [0] ∧
    (start_index (trivialChain 7) 0 emptyStore).checkpoint = some 0 ∧
    (start_index (trivialChain 7) 0 emptyStore).checkpoint ≠ some (0 + 1) :=
  ⟨by decide, by decide, by decide⟩

/-- C1 (amended): after the matches for height h are persisted, the
scan loop persists checkpoint h itself — not h + 1 — so a subsequent
run resumes at the last committed height h, reprocessing it (safely,
since match sets deduplicate), rather than at the first uncommitted
height. -/
theorem checkpoint_persists_current_height {Tx : Type} [DecidableEq Tx] (c : Chain Tx)
    (height sb : Nat) (s : Store Tx) :
    (stepHeight c height s).checkpoint = some height ∧
    retrieve_check_point (stepHeight c height s) sb = height :=
  ⟨rfl, rfl⟩

/-! ## Claim C2 -/

/-- C2 counterexample: the three-element witness
`[script = [0x7e], control block = [0xc0], annex = [0x50]]` ends in an
annex-tagged element (leading byte 0x50) and its script disassembles to
exactly "OP_CAT", yet the matcher returns no-match, because it inspects
the second-to-last element (the control block), never skipping the
annex. -/
theorem annex_witness_no_match :
    string_contains (to_asm_string [126]) OP_CAT_STR = true ∧
    ([[126], [192], [80]] : List (List Nat)).getLast? = some [80] ∧
    witness_includes_cat [[126], [192], [80]] = false :=
  ⟨by decide, by decide, by decide⟩

/-- C2 (amended): the matcher has no annex handling: on a three-element
witness [script, control block, annex] it inspects the control block
(the second-to-last element), so whenever 0x7e does not reach opcode
position in the control block the result is no-match, regardless of
the script element. -/
theorem matcher_ignores_annex (scriptElem cb annex : List Nat)
    (hcb : 126 ∉ scriptOpcodes cb) :
    witness_includes_cat [scriptElem, cb, annex] = false := by
  rw [@witness_includes_cat_eq_of_sel [scriptElem, cb, annex] cb (by simp) rfl]
  cases hsc : string_contains (to_asm_string cb) OP_CAT_STR with
  | false => rfl
  | true => exact absurd ((asm_cat_iff cb).mp hsc) hcb

/-- Witness for the amended C2 at a concrete annex-carrying witness. -/
theorem matcher_ignores_annex_witness :
    (126 ∉ scriptOpcodes [192]) ∧ witness_includes_cat [[126], [192], [80]] = false :=
  ⟨by decide, matcher_ignores_annex [126] [192] [80] (by decide)⟩

/-! ## Claim C3 -/

/-- C3 counterexample: the two-element witness
`[script = [0x7e], control block = [0xc0]]` has a script whose
disassembly is exactly "OP_CAT", yet the matcher returns no-match —
the code rejects every witness with `len <= 2`. -/
theorem two_element_witness_no_match :
    string_contains (to_asm_string [126]) OP_CAT_STR = true ∧
    witness_includes_cat [[126], [192]] = false :=
  ⟨by decide, by decide⟩

/-- C3 (amended): a two-element witness always yields no-match (the
matcher demands strictly more than two elements); only for witnesses
with more than two elements does OP_CAT in opcode position of the
second-to-last element yield a match. -/
theorem match_requires_more_than_two_elements :
    (∀ (w : List (List Nat)) (script : List Nat), 2 < w.length →
        w[w.length - 2]? = some script → 126 ∈ scriptOpcodes script →
        witness_includes_cat w = true) ∧
    (∀ w : List (List Nat), w.length = 2 → witness_includes_cat w = false) := by
  constructor
  · intro w script h2 hsel hop
    rw [witness_includes_cat_eq_of_sel h2 hsel]
    exact (asm_cat_iff script).mpr hop
  · intro w hw
    rw [witness_includes_cat, dif_pos (by omega)]

/-- Witness for the amended C3: a three-element witness whose
second-to-last element is the script `[0x7e]` matches; the two-element
witness of the counterexample does not. -/
theorem match_requires_more_than_two_elements_witness :
    (2 < ([[0], [126], [192]] : List (List Nat)).length ∧
      ([[0], [126], [192]] : List (List Nat))[1]? = some [126] ∧
      126 ∈ scriptOpcodes [126] ∧
      witness_includes_cat [[0], [126], [192]] = true) ∧
    (([[126], [192]] : List (List Nat)).length = 2 ∧
      witness_includes_cat [[126], [192]] = false) :=
  ⟨⟨by decide, by decide, by decide,
      match_requires_more_than_two_elements.1 [[0], [126], [192]] [126]
        (by decide) (by decide) (by decide)⟩,
    ⟨by decide, match_requires_more_than_two_elements.2 [[126], [192]] (by decide)⟩⟩

/-! ## Claim C4 -/

/-- C4 (code bug): at tip 5 < 6 = BLOCK_DEPTH, the unchecked u64
subtraction `tip - BLOCK_DEPTH` wraps to 2^64 − 1 (a build with
overflow checks panics instead), so the computed scan range contains
2^64 − 1 heights rather than being empty: `start_index` does not
complete immediately processing no heights. -/
theorem tip_below_margin_underflows :
    u64_sub 5 BLOCK_DEPTH = 2 ^ 64 - 1 ∧
    (scanHeights (trivialChain 5) 0 emptyStore).length = 2 ^ 64 - 1 ∧
    scanHeights (trivialChain 5) 0 emptyStore ≠ [] := by
  have hlen : (scanHeights (trivialChain 5) 0 emptyStore).length = 2 ^ 64 - 1 := by
    rw [scanHeights, List.length_range']
    decide
  refine ⟨by decide, hlen, fun hnil => ?_⟩
  rw [hnil] at hlen
  exact absurd hlen (by decide)

/-! ## Claim C5 -/

/-- C5: running the scan to completion and then re-running it from the
persisted checkpoint over the same chain leaves every persisted
per-height match set identical: the re-run reprocesses only the last
committed height, and re-inserting its matches into the stored set is
a no-op. -/
theorem rescan_idempotent {Tx : Type} [DecidableEq Tx] (c : Chain Tx) (start_block : Nat)
    (s : Store Tx) :
    (start_index c start_block (start_index c start_block s)).matchesAt
    = (start_index c start_block s).matchesAt := by
  by_cases h0 : u64_sub c.tip BLOCK_DEPTH - retrieve_check_point s start_block = 0
  · have hH1 : scanHeights c start_block s = [] := by
      rw [scanHeights, h0, List.range'_zero]
    have hs1 : start_index c start_block s = s := by
      rw [start_index, hH1]
      rfl
    have hss : start_index c start_block (start_index c start_block s)
        = start_index c start_block s := by
      rw [hs1, hs1]
    rw [hss]
  · have hpos : 0 < u64_sub c.tip BLOCK_DEPTH - retrieve_check_point s start_block :=
      Nat.pos_of_ne_zero h0
    have hgl : (scanHeights c start_block s).getLast?
        = some (u64_sub c.tip BLOCK_DEPTH - 1) := by
      rw [scanHeights, range'_getLast? _ _, if_neg h0]
      have h1 : retrieve_check_point s start_block +
          (u64_sub c.tip BLOCK_DEPTH - retrieve_check_point s start_block) - 1
          = u64_sub c.tip BLOCK_DEPTH - 1 := by omega
      rw [h1]
    have hcp' : (start_index c start_block s).checkpoint
        = some (u64_sub c.tip BLOCK_DEPTH - 1) :=
      scanLoop_checkpoint_last c (scanHeights c start_block s) s _ hgl
    have hcp2 : retrieve_check_point (start_index c start_block s) start_block
        = u64_sub c.tip BLOCK_DEPTH - 1 := by
      rw [retrieve_check_point, hcp', Option.getD_some]
    have hH2 : scanHeights c start_block (start_index c start_block s)
        = [u64_sub c.tip BLOCK_DEPTH - 1] := by
      rw [scanHeights, hcp2,
        show u64_sub c.tip BLOCK_DEPTH - (u64_sub c.tip BLOCK_DEPTH - 1) = 1 from by omega,
        List.range'_one]
    funext h
    rw [start_index_matchesAt c start_block (start_index c start_block s) h, hH2]
    by_cases hh : h = u64_sub c.tip BLOCK_DEPTH - 1
    · rw [hh]
      rw [if_pos (List.mem_singleton_self _)]
      have hmem : u64_sub c.tip BLOCK_DEPTH - 1 ∈ scanHeights c start_block s := by
        rw [scanHeights]
        exact List.mem_range'_1.mpr ⟨by omega, by omega⟩
      rw [start_index_matchesAt c start_block s, if_pos hmem, applyBlock_idem]
    · rw [if_neg (by simpa using hh)]

/-! ## Claim C6 -/

/-- C6: the matcher is total on every witness: the `expect` never
fires (the run model returns `some` of the pure answer), and a witness
with at most two elements deterministically yields no-match. -/
theorem matcher_never_panics (w : List (List Nat)) :
    witness_includes_cat_run w = some (witness_includes_cat w) ∧
    (w.length ≤ 2 → witness_includes_cat w = false) := by
  constructor
  · by_cases h : w.length ≤ 2
    · rw [witness_includes_cat_run, if_pos h, witness_includes_cat, dif_pos h]
    · rw [witness_includes_cat_run, if_neg h,
        List.getElem?_eq_getElem (show w.length - 2 < w.length by omega), Option.map_some']
      rw [witness_includes_cat, dif_neg h]
      rfl
  · intro hle
    rw [witness_includes_cat, dif_pos hle]

/-- Witness for C6 at the empty witness. -/
theorem matcher_never_panics_witness :
    (witness_includes_cat_run [] = some (witness_includes_cat []) ∧
      (([] : List (List Nat)).length ≤ 2 → witness_includes_cat [] = false)) ∧
    (([] : List (List Nat)).length ≤ 2 ∧ witness_includes_cat [] = false) :=
  ⟨matcher_never_panics [], ⟨by decide, (matcher_never_panics []).2 (by decide)⟩⟩

/-! ## Claim C7 -/

/-- C7: when the byte 0x7e occurs in the candidate tapscript only
outside opcode position (e.g. only inside a data push), Strategy B
(the matcher) returns no-match while the raw byte-scan Strategy A
reports a match on the same witness. -/
theorem datapush_byte_not_matched (w : List (List Nat)) (script : List Nat)
    (h2 : 2 < w.length) (hsel : w[w.length - 2]? = some script)
    (hop : 126 ∉ scriptOpcodes script) (hbyte : 126 ∈ script) :
    witness_includes_cat w = false ∧ strategy_a_byte_scan w = true := by
  constructor
  · rw [witness_includes_cat_eq_of_sel h2 hsel]
    cases hsc : string_contains (to_asm_string script) OP_CAT_STR with
    | false => rfl
    | true => exact absurd ((asm_cat_iff script).mp hsc) hop
  · have hmem : script ∈ w := List.getElem?_mem hsel
    rw [strategy_a_byte_scan, Bool.and_eq_true]
    constructor
    · cases w with
      | nil => simp at h2
      | cons a t => rfl
    · rw [List.any_eq_true]
      exact ⟨script, hmem, by rw [List.any_eq_true]; exact ⟨126, hbyte, by decide⟩⟩

/-- Witness for C7: the script `[0x01, 0x7e]` pushes the single data
byte 0x7e; its disassembly "OP_PUSHBYTES_1 7e" contains no "OP_CAT",
yet the byte-scan sees 0x7e. -/
theorem datapush_byte_not_matched_witness :
    (2 < ([[0], [1, 126], [192]] : List (List Nat)).length ∧
      ([[0], [1, 126], [192]] : List (List Nat))[1]? = some [1, 126] ∧
      126 ∉ scriptOpcodes [1, 126] ∧ 126 ∈ [1, 126]) ∧
    (witness_includes_cat [[0], [1, 126], [192]] = false ∧
      strategy_a_byte_scan [[0], [1, 126], [192]] = true) :=
  ⟨⟨by decide, by decide, by decide, by decide⟩,
    datapush_byte_not_matched [[0], [1, 126], [192]] [1, 126]
      (by decide) (by decide) (by decide) (by decide)⟩

/-! ## Claim C8 -/

/-- C8: inserting a transaction already present in the per-height set
leaves every stored set unchanged — in particular membership and size
at that height. -/
theorem insert_duplicate_tx_unchanged {Tx : Type} [DecidableEq Tx] (height : Nat) (tx : Tx)
    (s : Store Tx) (hmem : tx ∈ s.matchesAt height) :
    (insert_tx height tx s).matchesAt = s.matchesAt ∧
    ((insert_tx height tx s).matchesAt height).length = (s.matchesAt height).length := by
  have hfun : (insert_tx height tx s).matchesAt = s.matchesAt := by
    funext h
    show (if h = height then hsInsert tx (s.matchesAt height) else s.matchesAt h)
      = s.matchesAt h
    by_cases hh : h = height
    · subst hh
      rw [if_pos rfl, hsInsert_eq_of_mem hmem]
    · rw [if_neg hh]
  exact ⟨hfun, by rw [hfun]⟩

/-- Witness for C8 at a concrete store. -/
theorem insert_duplicate_tx_unchanged_witness :
    (7 ∈ reportStore.matchesAt 50) ∧
    ((insert_tx 50 7 reportStore).matchesAt = reportStore.matchesAt ∧
      ((insert_tx 50 7 reportStore).matchesAt 50).length
        = (reportStore.matchesAt 50).length) :=
  ⟨by decide, insert_duplicate_tx_unchanged 50 7 reportStore (by decide)⟩

/-! ## Claim C9 -/

/-- C9: with tip at least the safety margin (and a representable u64
tip), every height the scan processes — equivalently every checkpoint
value it persists, since the loop persists exactly the processed
heights — is strictly below tip − 6 (hence ≤ tip − 6), and the
checkpoint sequence starting from the loaded checkpoint is
monotonically non-decreasing. -/
theorem safety_margin_checkpoint_invariant {Tx : Type} [DecidableEq Tx] (c : Chain Tx)
    (sb : Nat) (s : Store Tx) (h6 : BLOCK_DEPTH ≤ c.tip) (htip : c.tip < U64_MOD) :
    (∀ v ∈ checkpointTrace c sb s, v < c.tip - BLOCK_DEPTH) ∧
    List.Chain' (· ≤ ·) (retrieve_check_point s sb :: checkpointTrace c sb s) := by
  have htr : checkpointTrace c sb s = scanHeights c sb s :=
    scanLoop_trace c (scanHeights c sb s) s
  have hBD : BLOCK_DEPTH = 6 := rfl
  have hMOD : U64_MOD = 2 ^ 64 := rfl
  have hu : u64_sub c.tip BLOCK_DEPTH = c.tip - BLOCK_DEPTH := by
    have htip2 : c.tip < 2 ^ 64 := htip
    have h62 : 6 ≤ c.tip := h6
    rw [u64_sub, hBD, hMOD]
    omega
  constructor
  · intro v hv
    rw [htr, scanHeights] at hv
    have hm := List.mem_range'_1.mp hv
    omega
  · rw [htr, scanHeights]
    rcases Nat.eq_zero_or_pos (u64_sub c.tip BLOCK_DEPTH - retrieve_check_point s sb)
      with h0 | h0
    · rw [h0, List.range'_zero]
      exact List.chain'_singleton _
    · obtain ⟨m, hm⟩ : ∃ m,
          u64_sub c.tip BLOCK_DEPTH - retrieve_check_point s sb = m + 1 :=
        ⟨u64_sub c.tip BLOCK_DEPTH - retrieve_check_point s sb - 1, by omega⟩
      rw [hm, List.range'_succ, List.chain'_cons]
      refine ⟨Nat.le_refl _, ?_⟩
      rw [← List.range'_succ]
      exact ((List.pairwise_lt_range' _ (m + 1) 1 (by omega)).imp
        (fun hx => Nat.le_of_lt hx)).chain'

/-- Witness for C9 on the trivial chain with tip 7. -/
theorem safety_margin_checkpoint_invariant_witness :
    (BLOCK_DEPTH ≤ (trivialChain 7).tip ∧ (trivialChain 7).tip < U64_MOD) ∧
    ((∀ v ∈ checkpointTrace (trivialChain 7) 0 emptyStore,
        v < (trivialChain 7).tip - BLOCK_DEPTH) ∧
      List.Chain' (· ≤ ·)
        (retrieve_check_point emptyStore 0 :: checkpointTrace (trivialChain 7) 0 emptyStore)) :=
  ⟨⟨by decide, by decide⟩,
    safety_margin_checkpoint_invariant (trivialChain 7) 0 emptyStore (by decide) (by decide)⟩

/-! ## Claim C10 -/

/-- C10: if any matched transaction stored in the report window has an
input whose witness has fewer than two elements, `generate_cat_report`
panics (returns `none` in the run model): it unconditionally extracts
the second-to-last witness element of every input. -/
theorem report_panics_on_short_witness {Tx : Type} [DecidableEq Tx] (c : Chain Tx)
    (sb : Nat) (s : Store Tx) (i : Nat) (tx : Tx) (inp : TxIn)
    (hi : i ∈ report_window s sb) (htx : tx ∈ s.matchesAt i) (hinp : inp ∈ c.txIns tx)
    (hw : inp.witness.length < 2) :
    generate_cat_report c sb s = none := by
  have hts : tapscript_of_input inp = none := by
    rw [tapscript_of_input, if_pos hw]
  have hrts : report_tx_scripts c tx = none :=
    foldlM_none _ (c.txIns tx) _ inp hinp (fun acc => by rw [hts])
  have hinner : ∀ acc : List (TransactionExt Tx),
      (s.matchesAt i).foldlM
        (fun acc2 tx2 =>
          match report_tx_scripts c tx2 with
          | none => none
          | some p => some (acc2 ++ [⟨i, p.1, p.2, tx2⟩])) acc = none :=
    fun acc => foldlM_none _ (s.matchesAt i) acc tx htx (fun acc2 => by rw [hrts])
  exact foldlM_none _ (report_window s sb) [] i hi (fun acc => hinner acc)

/-- Witness for C10: transaction 7, stored as a match at height 50
inside the window [0, 100), has one input with an empty witness; the
report generator panics. -/
theorem report_panics_on_short_witness_witness :
    (50 ∈ report_window reportStore 0 ∧ 7 ∈ reportStore.matchesAt 50 ∧
      (⟨[], false⟩ : TxIn) ∈ reportChain.txIns 7 ∧
      (⟨[], false⟩ : TxIn).witness.length < 2) ∧
    generate_cat_report reportChain 0 reportStore = none :=
  ⟨⟨by decide, by decide, by decide, by decide⟩,
    report_panics_on_short_witness reportChain 0 reportStore 50 7 ⟨[], false⟩
      (by decide) (by decide) (by decide) (by decide)⟩

end Felix

